import Mathlib

/-!
# Verification of the protoelectronics circuit core

A shallow embedding of the circuit-graph core declared in
`src/include/components.hpp` and `src/include/circuit.hpp`, together with
proofs about its data model (Node registry, Component/Node back-edges,
the `Counter` instance registry), its container (`Circuit`), its numeric
laws (Resistor) and its voltage-propagation algorithm.

Definitions that embed code present in the headers (the `Counter` template,
`Node::to_string`, `Node::lex_node_cmp`) follow that code line by line.
Member functions whose bodies live in the repository's missing `.cpp`
translation units are modelled from the specification, and each such
definition carries a doc comment starting `Modelled from the spec:`.
Doubles are modelled as rationals; machine `int` coordinates as `Int`
(no arithmetic is ever performed on coordinates, so overflow is moot).
-/

namespace Proto

/-! ## The `Counter<T>` instance registry (components.hpp lines 31-53)

The template is fully inline in the header:
`Counter() { _id = ++_counter; }`, `~Counter() { --_counter; }`,
`static int counter()` returns `_counter`.  The static member `_counter`
is zero-initialized.  We model the whole per-variant registry state:
the static counter, the multiset of ids of live instances, and the list
of all ids ever assigned, in construction order. -/

structure CounterState where
  counter : Int
  liveIds : List Int
  assigned : List Int
deriving Repr, DecidableEq

def CounterState.init : CounterState := ⟨0, [], []⟩

/-- `Counter()` constructor: `_id = ++_counter;` — the counter is
pre-incremented and the new value becomes the instance's id. -/
def CounterState.construct (s : CounterState) : CounterState :=
  let c := s.counter + 1
  ⟨c, s.liveIds ++ [c], s.assigned ++ [c]⟩

/-- `~Counter()` destructor: `--_counter;` — the instance with the given
id dies and the counter is decremented. -/
def CounterState.destruct (s : CounterState) (i : Int) : CounterState :=
  ⟨s.counter - 1, s.liveIds.erase i, s.assigned⟩

/-- A construction/destruction event on instances of one variant `T`. -/
inductive CounterOp where
  | con : CounterOp
  | des : Int → CounterOp
deriving Repr, DecidableEq

/-- Run a sequence of constructor/destructor events from a state.
A destructor event is only meaningful for a currently live instance;
a sequence destroying a non-live id is rejected (`none`). -/
def runCounterOps : CounterState → List CounterOp → Option CounterState
  | s, [] => some s
  | s, CounterOp.con :: rest => runCounterOps s.construct rest
  | s, CounterOp.des i :: rest =>
      if i ∈ s.liveIds then runCounterOps (s.destruct i) rest else none

/-- The id-monotonicity property asserted of `Counter`: every assigned id
is strictly greater than all earlier-assigned ids of the same variant. -/
def idsStrictMono (s : CounterState) : Prop :=
  s.assigned.Pairwise (· < ·)

instance (s : CounterState) : Decidable (idsStrictMono s) := by
  unfold idsStrictMono; infer_instance

/-- `CounterOp.con` events in a list. -/
def consOnly (ops : List CounterOp) : Prop :=
  ∀ op ∈ ops, op = CounterOp.con

theorem runCounterOps_counter_eq_live :
    ∀ (ops : List CounterOp) (s t : CounterState),
      s.counter = s.liveIds.length →
      runCounterOps s ops = some t →
      t.counter = t.liveIds.length := by
  intro ops
  induction ops with
  | nil =>
      intro s t h hrun
      simp [runCounterOps] at hrun
      exact hrun ▸ h
  | cons op rest ih =>
      intro s t h hrun
      cases op with
      | con =>
          refine ih s.construct t ?_ hrun
          simp [CounterState.construct, h]
      | des i =>
          simp only [runCounterOps] at hrun
          by_cases hmem : i ∈ s.liveIds
          · rw [if_pos hmem] at hrun
            refine ih (s.destruct i) t ?_ hrun
            have h1 : (s.liveIds.erase i).length = s.liveIds.length - 1 :=
              List.length_erase_of_mem hmem
            have h2 : 0 < s.liveIds.length := List.length_pos_of_mem hmem
            simp only [CounterState.destruct, h1]
            omega
          · rw [if_neg hmem] at hrun
            exact absurd hrun (by simp)

theorem runCounterOps_consOnly_mono :
    ∀ (ops : List CounterOp) (s t : CounterState),
      consOnly ops →
      s.counter = s.liveIds.length →
      idsStrictMono s →
      (∀ i ∈ s.assigned, i ≤ s.counter) →
      runCounterOps s ops = some t →
      idsStrictMono t := by
  intro ops
  induction ops with
  | nil =>
      intro s t _ _ hmono _ hrun
      simp [runCounterOps] at hrun
      exact hrun ▸ hmono
  | cons op rest ih =>
      intro s t hcons hlen hmono hbound hrun
      have hop : op = CounterOp.con := hcons op (by simp)
      subst hop
      simp only [runCounterOps] at hrun
      refine ih s.construct t ?_ ?_ ?_ ?_ hrun
      · intro o ho; exact hcons o (by simp [ho])
      · simp [CounterState.construct, hlen]
      · simp only [idsStrictMono, CounterState.construct] at hmono ⊢
        simp only [List.pairwise_append]
        refine ⟨hmono, by simp, ?_⟩
        intro a ha b hb
        simp at hb
        have := hbound a ha
        omega
      · intro i hi
        simp [CounterState.construct] at hi ⊢
        rcases hi with hi | hi
        · have := hbound i hi; omega
        · omega

/-! ## The node registry key (components.hpp lines 99-131) -/

/-- `Node::to_string` (components.hpp lines 129-131): the decimal strings
of `_x` and `_y` concatenated with no separator,
`std::to_string(_x) + std::to_string(_y)`. -/
def nodeKey (x y : Int) : String := toString x ++ toString y

/-- `Node::lex_node_cmp` (components.hpp lines 99-104): the registry's
strict-weak order compares nodes by `to_string() < to_string()`.
String `<` is, by definition, lexicographic order on the character
sequences, so we compare the key strings' character data. -/
def lex_node_cmp (a b : Int × Int) : Bool :=
  decide (@LT.lt (List Char) List.instLT (nodeKey a.1 a.2).data (nodeKey b.1 b.2).data)

/-- `lex_node_cmp` is exactly the `<` of the key strings (`String`'s
built-in lexicographic order, as used by `std::set<..., lex_node_cmp>`). -/
theorem lex_node_cmp_iff (a b : Int × Int) :
    lex_node_cmp a b = true
      ↔ @LT.lt String String.instLT (nodeKey a.1 a.2) (nodeKey b.1 b.2) := by
  simp only [lex_node_cmp, decide_eq_true_eq]
  exact String.lt_iff.symm

/-- Two nodes that the registry `std::set` treats as the same element:
neither compares before the other under `lex_node_cmp`. -/
def setEquiv (a b : Int × Int) : Bool :=
  !lex_node_cmp a b && !lex_node_cmp b a

/-- `Node::find(int, int)` (components.hpp line 116): `std::set::find` on
`_allNodes` with comparator `lex_node_cmp` — returns the stored node
equivalent to the probe coordinates, if any.  The registry is modelled as
the list of stored nodes. -/
def registryFind (reg : List (Int × Int)) (x y : Int) : Option (Int × Int) :=
  reg.find? (fun p => setEquiv p (x, y))

theorem setEquiv_refl (a : Int × Int) : setEquiv a a = true := by
  simp only [setEquiv, lex_node_cmp, Bool.and_eq_true, Bool.not_eq_true',
    decide_eq_false_iff_not]
  constructor <;> exact fun h => String.lt_irrefl _ (String.lt_iff.mpr h)

theorem setEquiv_symm (a b : Int × Int) : setEquiv a b = setEquiv b a := by
  simp [setEquiv, Bool.and_comm]

/-! ## Registry insertion and coordinate uniqueness -/

/-- Modelled from the spec: the body of `Component::addNode` is in the
repository's missing translation unit; per the spec it "connects component
to node if that node exist, if not, makes new node and connects", and a
Node is "created on first connection request at a coordinate not already
present".  At registry level a request adds a new node exactly when no
stored node is `setEquiv`-equivalent to the requested coordinates (the
`std::set` insertion under `lex_node_cmp`, which is from the header). -/
def registryAdd (reg : List (Int × Int)) (x y : Int) : List (Int × Int) :=
  if reg.any (fun p => setEquiv p (x, y)) then reg else reg ++ [(x, y)]

/-- The registry after an arbitrary sequence of connection requests,
starting from the empty registry. -/
def buildRegistry (reqs : List (Int × Int)) : List (Int × Int) :=
  reqs.foldl (fun r p => registryAdd r p.1 p.2) []

/-- No two stored nodes are equivalent under the registry comparator. -/
def keysDistinct (reg : List (Int × Int)) : Prop :=
  reg.Pairwise (fun a b => setEquiv a b = false)

theorem registryAdd_keysDistinct (reg : List (Int × Int)) (x y : Int)
    (h : keysDistinct reg) : keysDistinct (registryAdd reg x y) := by
  unfold registryAdd
  by_cases hany : reg.any (fun p => setEquiv p (x, y)) = true
  · rw [if_pos hany]; exact h
  · rw [if_neg hany]
    unfold keysDistinct at h ⊢
    rw [List.pairwise_append]
    refine ⟨h, List.pairwise_singleton _ _, ?_⟩
    intro a ha b hb
    simp only [List.mem_singleton] at hb
    subst hb
    simp only [List.any_eq_true, not_exists] at hany
    have := hany a
    simp only [ha, true_and, not_true_eq_false] at this
    cases hsa : setEquiv a (x, y)
    · rfl
    · exact absurd hsa (by simpa using this)

theorem buildRegistry_keysDistinct (reqs : List (Int × Int)) :
    keysDistinct (buildRegistry reqs) := by
  unfold buildRegistry
  have : ∀ (l : List (Int × Int)) (reg : List (Int × Int)), keysDistinct reg →
      keysDistinct (l.foldl (fun r p => registryAdd r p.1 p.2) reg) := by
    intro l
    induction l with
    | nil => intro reg h; exact h
    | cons p rest ih =>
        intro reg h
        exact ih (registryAdd reg p.1 p.2) (registryAdd_keysDistinct reg p.1 p.2 h)
  exact this reqs [] (List.Pairwise.nil)

theorem keysDistinct_nodup (reg : List (Int × Int)) (h : keysDistinct reg) :
    reg.Nodup := by
  refine h.imp ?_
  intro a b hab
  intro heq
  subst heq
  rw [setEquiv_refl] at hab
  exact absurd hab (by simp)

/-! ## Claim theorems: instance registry, key collision, uniqueness -/

/-- **C10 counterexample.** Construct one instance (id 1), destroy it,
construct another: the second instance is assigned id 1 again, which is
not strictly greater than the earlier-assigned id 1, refuting the claimed
monotonicity of ids across the whole construct/destruct sequence. -/
theorem counter_id_not_strictMono :
    runCounterOps CounterState.init [CounterOp.con, CounterOp.des 1, CounterOp.con]
        = some ⟨1, [1], [1, 1]⟩ ∧
      ¬ idsStrictMono ⟨1, [1], [1, 1]⟩ := by
  constructor
  · rfl
  · decide

/-- **C10 (amended).** For every valid construct/destruct sequence,
`Counter<T>::counter()` equals the number of currently live instances of
`T`; and the assigned ids are strictly increasing provided the sequence
contains no destruction (in general a destruction lets a later
construction reuse an id, see the counterexample). -/
theorem counter_live_count_and_mono (ops : List CounterOp) (s : CounterState)
    (h : runCounterOps CounterState.init ops = some s) :
    s.counter = s.liveIds.length ∧ (consOnly ops → idsStrictMono s) := by
  constructor
  · exact runCounterOps_counter_eq_live ops CounterState.init s rfl h
  · intro hco
    exact runCounterOps_consOnly_mono ops CounterState.init s hco rfl
      (by simp [CounterState.init, idsStrictMono]) (by simp [CounterState.init]) h

/-- Witness for C10 (amended): two constructions from scratch yield
counter 2 with live ids `[1, 2]` and strictly increasing assigned ids. -/
theorem counter_live_count_and_mono_witness :
    (⟨2, [1, 2], [1, 2]⟩ : CounterState).counter
        = (⟨2, [1, 2], [1, 2]⟩ : CounterState).liveIds.length ∧
      (consOnly [CounterOp.con, CounterOp.con] → idsStrictMono ⟨2, [1, 2], [1, 2]⟩) :=
  counter_live_count_and_mono [CounterOp.con, CounterOp.con] ⟨2, [1, 2], [1, 2]⟩ (by rfl)

/-- **C3.** The registry key `Node::to_string` is not injective: the
distinct coordinate pairs `(1, 23)` and `(12, 3)` both render as the key
string `"123"`, the comparator `lex_node_cmp` orders the two nodes as
equivalent, and `Node::find(12, 3)` on a registry holding the node
`(1, 23)` returns that node, whose `x()` differs from the argument 12. -/
theorem nodeKey_not_injective :
    nodeKey 1 23 = nodeKey 12 3 ∧
      ((1, 23) : Int × Int) ≠ (12, 3) ∧
      setEquiv (1, 23) (12, 3) = true ∧
      registryFind [(1, 23)] 12 3 = some (1, 23) ∧
      (1 : Int) ≠ 12 := by
  refine ⟨rfl, by decide, by decide, ?_, by decide⟩
  rfl

theorem nodup_filter_eq_length_le_one {α : Type} [DecidableEq α] :
    ∀ (l : List α), l.Nodup → ∀ a : α, (l.filter (fun b => b = a)).length ≤ 1 := by
  intro l
  induction l with
  | nil => intro _ a; simp
  | cons x xs ih =>
      intro hnd a
      rw [List.nodup_cons] at hnd
      by_cases hx : x = a
      · subst hx
        have hfil : xs.filter (fun b => b = x) = [] := by
          rw [List.filter_eq_nil_iff]
          intro b hb
          simp only [decide_eq_true_eq]
          intro hba
          exact hnd.1 (hba ▸ hb)
        simp [List.filter_cons, hfil]
      · simp only [List.filter_cons]
        rw [if_neg (by simpa using hx)]
        exact ih hnd.2 a

/-- **C2.** After any sequence of connection requests starting from the
empty registry, at most one Node with coordinates `(x, y)` exists in the
registry: the exact pair occurs at most once in the stored node list. -/
theorem node_unique_per_coordinate (reqs : List (Int × Int)) (x y : Int) :
    ((buildRegistry reqs).filter (fun p => p = (x, y))).length ≤ 1 :=
  nodup_filter_eq_length_le_one _
    (keysDistinct_nodup _ (buildRegistry_keysDistinct reqs)) (x, y)

/-! ## The Circuit container (circuit.hpp) -/

/-- The error a Circuit index operation signals: C++ throws
`std::out_of_range`, a recoverable exception. -/
inductive CircuitError where
  | outOfRange : CircuitError
deriving Repr, DecidableEq

/-- Modelled from the spec: the bodies of `Circuit`'s members are in the
repository's missing translation unit.  A Circuit is the ordered sequence
of its owned components (`_components`), the components identified by id. -/
structure Circuit where
  components : List Nat
deriving Repr, DecidableEq

/-- `Circuit::size()`. -/
def Circuit.size (c : Circuit) : Nat := c.components.length

/-- Modelled from the spec: `Circuit::removeComponent(unsigned i)` —
"Removes component from circuit by index. Throws exception if index is
out of range" (circuit.hpp lines 23-24).  Out of range signals a
recoverable error and the sequence is unchanged (the caller keeps the
original value); in range, entry `i` is erased and subsequent entries are
renumbered. -/
def Circuit.removeComponent (c : Circuit) (i : Nat) : Except CircuitError Circuit :=
  if i < c.components.length then
    Except.ok ⟨c.components.take i ++ c.components.drop (i + 1)⟩
  else
    Except.error CircuitError.outOfRange

/-- Modelled from the spec: `Circuit::operator[](unsigned i)` — "Access
components by index. Throws exception if index is out of range"
(circuit.hpp lines 29-30). -/
def Circuit.getComponent (c : Circuit) (i : Nat) : Except CircuitError Nat :=
  match c.components[i]? with
  | some x => Except.ok x
  | none => Except.error CircuitError.outOfRange

/-- **C7.** For `i ≥ size()` both `removeComponent(i)` and `operator[](i)`
fail with the recoverable out-of-range error and no mutation occurs; for
`i < size()` `removeComponent` removes exactly entry `i` and renumbers the
subsequent entries. -/
theorem circuit_index_out_of_range (c : Circuit) (i : Nat) :
    (c.size ≤ i →
      c.removeComponent i = Except.error CircuitError.outOfRange ∧
        c.getComponent i = Except.error CircuitError.outOfRange) ∧
    (i < c.size →
      ∃ l : List Nat,
        c.removeComponent i = Except.ok ⟨l⟩ ∧
          l.length + 1 = c.size ∧
          (∀ j, j < i → l[j]? = c.components[j]?) ∧
          (∀ j, i ≤ j → l[j]? = c.components[j + 1]?)) := by
  constructor
  · intro hge
    unfold Circuit.size at hge
    constructor
    · unfold Circuit.removeComponent
      rw [if_neg (by omega)]
    · unfold Circuit.getComponent
      rw [List.getElem?_eq_none (by omega)]
  · intro hlt
    unfold Circuit.size at hlt
    refine ⟨c.components.take i ++ c.components.drop (i + 1), ?_, ?_, ?_, ?_⟩
    · unfold Circuit.removeComponent
      rw [if_pos hlt]
    · rw [List.length_append, List.length_take, List.length_drop]
      unfold Circuit.size
      omega
    · intro j hj
      rw [List.getElem?_append, List.length_take]
      rw [if_pos (by omega)]
      rw [List.getElem?_take, if_pos hj]
    · intro j hij
      rw [List.getElem?_append_right (by rw [List.length_take]; omega)]
      rw [List.getElem?_drop, List.length_take]
      congr 1
      omega

/-- Witness for C7: on the two-component circuit `[10, 20]`, index 5 is
rejected with the out-of-range error by both operations. -/
theorem circuit_index_out_of_range_witness :
    Circuit.removeComponent ⟨[10, 20]⟩ 5 = Except.error CircuitError.outOfRange ∧
      Circuit.getComponent ⟨[10, 20]⟩ 5 = Except.error CircuitError.outOfRange :=
  (circuit_index_out_of_range ⟨[10, 20]⟩ 5).1 (by decide)

/-! ## Resistor (components.hpp lines 318-346) -/

/-- Modelled from the spec: the bodies of `Resistor::voltage` and
`Resistor::current` are in the repository's missing translation unit.  A
Resistor holds its resistance and is attached to two terminal nodes; we
record the two terminal node voltages (slot 0 and slot 1).  Doubles are
modelled as rationals. -/
structure Resistor where
  resistance : ℚ
  va : ℚ
  vb : ℚ
deriving Repr, DecidableEq

/-- Modelled from the spec: `Resistor::voltage()` — "voltage drop is the
difference between its two terminal Nodes' voltages". -/
def Resistor.voltage (r : Resistor) : ℚ := r.va - r.vb

/-- Modelled from the spec: `Resistor::current()` — "current = voltage
drop ÷ resistance; dividing by a resistance of 0 is a constraint
violation", with §7 requiring an explicit undefined sentinel at
resistance 0 rather than a silent numeric fault; the sentinel is `none`. -/
def Resistor.current (r : Resistor) : Option ℚ :=
  if r.resistance = 0 then none else some (r.voltage / r.resistance)

/-- `doubleEquals` (components.hpp line 55): equality of doubles within a
tolerance; the body is in the missing translation unit, modelled from the
spec as the absolute difference lying below the tolerance.  The default
tolerance is `1e-5 = 1/100000`. -/
def doubleEquals (a b eps : ℚ) : Prop := |a - b| < eps

instance (a b eps : ℚ) : Decidable (doubleEquals a b eps) := by
  unfold doubleEquals; infer_instance

/-- **C6.** For a Resistor with nonzero resistance `R` and terminal
voltages `Va` (slot 0) and `Vb` (slot 1), `voltage()` returns `Va - Vb`
and `current()` returns `(Va - Vb) / R`, both within the system tolerance
`1e-5` of `doubleEquals`. -/
theorem resistor_law (r : Resistor) (h : r.resistance ≠ 0) :
    doubleEquals r.voltage (r.va - r.vb) (1 / 100000) ∧
      ∃ c : ℚ, r.current = some c ∧
        doubleEquals c ((r.va - r.vb) / r.resistance) (1 / 100000) := by
  refine ⟨?_, r.voltage / r.resistance, ?_, ?_⟩
  · simp [doubleEquals, Resistor.voltage]
  · simp [Resistor.current, h]
  · simp [doubleEquals, Resistor.voltage]

/-- Witness for C6: a 1000 Ω resistor with terminals at 5 V and 0 V. -/
theorem resistor_law_witness :
    doubleEquals (Resistor.voltage ⟨1000, 5, 0⟩)
        ((5 : ℚ) - 0) (1 / 100000) ∧
      ∃ c : ℚ, (Resistor.current ⟨1000, 5, 0⟩) = some c ∧
        doubleEquals c (((5 : ℚ) - 0) / 1000) (1 / 100000) :=
  resistor_law ⟨1000, 5, 0⟩ (by norm_num)

/-- **C9.** A Resistor with resistance 0 produces no silent numeric
fault: `current()` is the explicit undefined sentinel, never an unguarded
division by zero. -/
theorem resistor_zero_resistance_sentinel (r : Resistor) (h : r.resistance = 0) :
    r.current = none := by
  simp [Resistor.current, h]

/-- Witness for C9: a 0 Ω resistor with terminals at 5 V and 0 V. -/
theorem resistor_zero_resistance_sentinel_witness :
    (Resistor.current ⟨0, 5, 0⟩) = none :=
  resistor_zero_resistance_sentinel ⟨0, 5, 0⟩ (by norm_num)

/-! ## The Component/Node connection graph (back-edge symmetry)

Modelled from the spec: the bodies of `Component::addNode`, `disconnect`
and `reconnect`, and of `Node::addComponent` and
`Node::disconnectFromComponent`, are in the repository's missing
translation unit.  Per the spec the relationship is bidirectional
(a Node knows its directly-attached components; a Component knows its
attached nodes, in ordered slots) and every operation updates both
directions.  Components are identified by index below `numComps`. -/

/-- Pointwise function update. -/
def upd {α β : Type} [DecidableEq α] (f : α → β) (a : α) (b : β) : α → β :=
  fun q => if q = a then b else f q

structure ConnState where
  numComps : Nat
  compNodes : Nat → List (Int × Int)
  nodeComps : Int × Int → List Nat

def ConnState.init : ConnState := ⟨0, fun _ => [], fun _ => []⟩

/-- A new standalone component: attached to no node yet. -/
def ConnState.newComponent (s : ConnState) : ConnState :=
  { s with numComps := s.numComps + 1 }

/-- Modelled from the spec: `Component::addNode(x, y)` appends the node
to the component's slot sequence, and `Node::addComponent` appends the
component to the node's direct-component list if not already present
(idempotent). -/
def ConnState.addNode (s : ConnState) (c : Nat) (p : Int × Int) : ConnState :=
  if c < s.numComps then
    { numComps := s.numComps,
      compNodes := upd s.compNodes c (s.compNodes c ++ [p]),
      nodeComps := upd s.nodeComps p
        (if c ∈ s.nodeComps p then s.nodeComps p else s.nodeComps p ++ [c]) }
  else s

/-- Modelled from the spec: `Component::disconnect(x, y)` removes the
component→node edge for every slot at those coordinates and the
node→component back-edge (`Node::disconnectFromComponent`). -/
def ConnState.disconnect (s : ConnState) (c : Nat) (p : Int × Int) : ConnState :=
  if c < s.numComps then
    { numComps := s.numComps,
      compNodes := upd s.compNodes c ((s.compNodes c).filter (fun q => q ≠ p)),
      nodeComps := upd s.nodeComps p ((s.nodeComps p).filter (fun d => d ≠ c)) }
  else s

/-- Modelled from the spec: `Component::reconnect(xFrom, yFrom, xTo, yTo)`
replaces, in place, every slot bound to `pFrom` with `pTo`
(`disconnectAndPreserveEmptyPlace` keeps the slot position and `addNodeAt`
fills it), removes the stale back-edge at `pFrom` and installs the
back-edge at `pTo`. -/
def ConnState.reconnect (s : ConnState) (c : Nat) (pFrom pTo : Int × Int) :
    ConnState :=
  if c < s.numComps ∧ pFrom ∈ s.compNodes c then
    { numComps := s.numComps,
      compNodes := upd s.compNodes c
        ((s.compNodes c).map (fun q => if q = pFrom then pTo else q)),
      nodeComps := upd (upd s.nodeComps pFrom
          ((s.nodeComps pFrom).filter (fun x => x ≠ c))) pTo
        (if c ∈ upd s.nodeComps pFrom
            ((s.nodeComps pFrom).filter (fun x => x ≠ c)) pTo then
          upd s.nodeComps pFrom
            ((s.nodeComps pFrom).filter (fun x => x ≠ c)) pTo
        else
          upd s.nodeComps pFrom
            ((s.nodeComps pFrom).filter (fun x => x ≠ c)) pTo ++ [c]) }
  else s

/-- The quiescent-point invariant: a component index appears in a node's
direct-component list exactly when that component exists and the node's
coordinates appear in the component's slot sequence (and indices beyond
`numComps` have empty slot sequences). -/
def symmetric (s : ConnState) : Prop :=
  (∀ c : Nat, s.numComps ≤ c → s.compNodes c = []) ∧
    ∀ (c : Nat) (p : Int × Int),
      c ∈ s.nodeComps p ↔ (c < s.numComps ∧ p ∈ s.compNodes c)

theorem symmetric_init : symmetric ConnState.init := by
  constructor
  · intro c _; rfl
  · intro c p
    simp [ConnState.init]

theorem symmetric_newComponent (s : ConnState) (h : symmetric s) :
    symmetric s.newComponent := by
  obtain ⟨h0, h1⟩ := h
  constructor
  · intro c hc
    exact h0 c (by simp [ConnState.newComponent] at hc; omega)
  · intro c p
    simp only [ConnState.newComponent]
    rw [h1 c p]
    constructor
    · rintro ⟨hlt, hp⟩; exact ⟨by omega, hp⟩
    · rintro ⟨hlt, hp⟩
      refine ⟨?_, hp⟩
      rcases Nat.lt_or_ge c s.numComps with hc | hc
      · exact hc
      · rw [h0 c hc] at hp; simp at hp

theorem symmetric_addNode (s : ConnState) (c : Nat) (p : Int × Int)
    (h : symmetric s) : symmetric (s.addNode c p) := by
  obtain ⟨h0, h1⟩ := h
  unfold ConnState.addNode
  by_cases hc : c < s.numComps
  · rw [if_pos hc]
    constructor
    · intro d hd
      have hd2 : s.numComps ≤ d := hd
      have hdc : d ≠ c := by omega
      simp only [upd, if_neg hdc]
      exact h0 d hd2
    · intro d q
      simp only [upd]
      by_cases hq : q = p
      · subst hq
        by_cases hdc : d = c
        · subst hdc
          rw [if_pos rfl, if_pos rfl]
          constructor
          · intro _; exact ⟨hc, by simp⟩
          · intro _
            by_cases hmem : d ∈ s.nodeComps q
            · rw [if_pos hmem]; exact hmem
            · rw [if_neg hmem]; simp
        · rw [if_pos rfl, if_neg hdc]
          have base := h1 d q
          by_cases hmem : c ∈ s.nodeComps q
          · rw [if_pos hmem]; exact base
          · rw [if_neg hmem]
            rw [List.mem_append]
            simp only [List.mem_singleton]
            constructor
            · rintro (hd | hd)
              · exact base.mp hd
              · exact absurd hd hdc
            · intro hd; exact Or.inl (base.mpr hd)
      · rw [if_neg hq]
        by_cases hdc : d = c
        · subst hdc
          rw [if_pos rfl]
          rw [h1 d q]
          constructor
          · rintro ⟨hlt, hmem⟩
            exact ⟨hlt, by rw [List.mem_append]; exact Or.inl hmem⟩
          · rintro ⟨hlt, hmem⟩
            rw [List.mem_append] at hmem
            rcases hmem with hmem | hmem
            · exact ⟨hlt, hmem⟩
            · simp only [List.mem_singleton] at hmem
              exact absurd hmem hq
        · rw [if_neg hdc]
          exact h1 d q
  · rw [if_neg hc]
    exact ⟨h0, h1⟩

theorem mem_filter_ne {α : Type} [DecidableEq α] (l : List α) (a b : α) :
    a ∈ l.filter (fun x => x ≠ b) ↔ a ∈ l ∧ a ≠ b := by
  rw [List.mem_filter]
  simp

theorem mem_addIdem (l : List Nat) (c d : Nat) :
    (d ∈ if c ∈ l then l else l ++ [c]) ↔ d ∈ l ∨ d = c := by
  by_cases h : c ∈ l
  · rw [if_pos h]
    constructor
    · exact Or.inl
    · rintro (hd | hd)
      · exact hd
      · exact hd ▸ h
  · rw [if_neg h]
    rw [List.mem_append, List.mem_singleton]

theorem symmetric_disconnect (s : ConnState) (c : Nat) (p : Int × Int)
    (h : symmetric s) : symmetric (s.disconnect c p) := by
  obtain ⟨h0, h1⟩ := h
  unfold ConnState.disconnect
  by_cases hc : c < s.numComps
  · rw [if_pos hc]
    constructor
    · intro d hd
      have hd2 : s.numComps ≤ d := hd
      have hdc : d ≠ c := by omega
      simp only [upd, if_neg hdc]
      exact h0 d hd2
    · intro d q
      simp only [upd]
      by_cases hq : q = p
      · subst hq
        rw [if_pos rfl]
        rw [mem_filter_ne]
        by_cases hdc : d = c
        · subst hdc
          rw [if_pos rfl]
          rw [mem_filter_ne]
          constructor
          · rintro ⟨_, hne⟩; exact absurd rfl hne
          · rintro ⟨_, _, hne⟩; exact absurd rfl hne
        · rw [if_neg hdc]
          rw [h1 d q]
          constructor
          · rintro ⟨⟨hlt, hmem⟩, _⟩; exact ⟨hlt, hmem⟩
          · rintro ⟨hlt, hmem⟩; exact ⟨⟨hlt, hmem⟩, hdc⟩
      · rw [if_neg hq]
        by_cases hdc : d = c
        · subst hdc
          rw [if_pos rfl, h1 d q, mem_filter_ne]
          constructor
          · rintro ⟨hlt, hmem⟩; exact ⟨hlt, hmem, hq⟩
          · rintro ⟨hlt, hmem, _⟩; exact ⟨hlt, hmem⟩
        · rw [if_neg hdc]
          exact h1 d q
  · rw [if_neg hc]
    exact ⟨h0, h1⟩

theorem mem_substList (l : List (Int × Int)) (pFrom pTo q : Int × Int) :
    q ∈ l.map (fun x => if x = pFrom then pTo else x) ↔
      ((q = pTo ∧ pFrom ∈ l) ∨ (q ∈ l ∧ q ≠ pFrom)) := by
  rw [List.mem_map]
  constructor
  · rintro ⟨x, hx, hsx⟩
    by_cases hxF : x = pFrom
    · subst hxF
      rw [if_pos rfl] at hsx
      exact Or.inl ⟨hsx.symm, hx⟩
    · rw [if_neg hxF] at hsx
      subst hsx
      exact Or.inr ⟨hx, hxF⟩
  · rintro (⟨hq, hin⟩ | ⟨hin, hqF⟩)
    · exact ⟨pFrom, hin, by rw [if_pos rfl]; exact hq.symm⟩
    · exact ⟨q, hin, by rw [if_neg hqF]⟩

theorem symmetric_reconnect (s : ConnState) (c : Nat) (pFrom pTo : Int × Int)
    (h : symmetric s) : symmetric (s.reconnect c pFrom pTo) := by
  obtain ⟨h0, h1⟩ := h
  unfold ConnState.reconnect
  by_cases hg : c < s.numComps ∧ pFrom ∈ s.compNodes c
  · rw [if_pos hg]
    obtain ⟨hc, hpF⟩ := hg
    constructor
    · intro d hd
      have hd2 : s.numComps ≤ d := hd
      have hdc : d ≠ c := by omega
      simp only [upd, if_neg hdc]
      exact h0 d hd2
    · intro d q
      have hN : ∀ e r, e ∈ upd (upd s.nodeComps pFrom
            ((s.nodeComps pFrom).filter (fun x => x ≠ c))) pTo
            (if c ∈ upd s.nodeComps pFrom
                ((s.nodeComps pFrom).filter (fun x => x ≠ c)) pTo then
              upd s.nodeComps pFrom
                ((s.nodeComps pFrom).filter (fun x => x ≠ c)) pTo
            else
              upd s.nodeComps pFrom
                ((s.nodeComps pFrom).filter (fun x => x ≠ c)) pTo ++ [c]) r ↔
          ((e ∈ s.nodeComps r ∧ ¬(r = pFrom ∧ e = c)) ∨ (r = pTo ∧ e = c)) := by
        intro e r
        simp only [upd]
        by_cases hrTo : r = pTo
        · subst hrTo
          rw [if_pos rfl]
          rw [mem_addIdem]
          by_cases hrF : r = pFrom
          · rw [if_pos hrF]
            subst hrF
            rw [mem_filter_ne]
            constructor
            · rintro (⟨he, hne⟩ | he)
              · exact Or.inl ⟨he, fun hand => hne hand.2⟩
              · exact Or.inr ⟨rfl, he⟩
            · rintro (⟨he, hne⟩ | ⟨_, he⟩)
              · exact Or.inl ⟨he, fun hec => hne ⟨rfl, hec⟩⟩
              · exact Or.inr he
          · rw [if_neg hrF]
            constructor
            · rintro (he | he)
              · exact Or.inl ⟨he, fun hand => hrF hand.1⟩
              · exact Or.inr ⟨rfl, he⟩
            · rintro (⟨he, _⟩ | ⟨_, he⟩)
              · exact Or.inl he
              · exact Or.inr he
        · rw [if_neg hrTo]
          by_cases hrF : r = pFrom
          · rw [if_pos hrF]
            subst hrF
            rw [mem_filter_ne]
            constructor
            · rintro ⟨he, hne⟩
              exact Or.inl ⟨he, fun hand => hne hand.2⟩
            · rintro (⟨he, hne⟩ | ⟨hto, _⟩)
              · exact ⟨he, fun hec => hne ⟨rfl, hec⟩⟩
              · exact absurd hto hrTo
          · rw [if_neg hrF]
            constructor
            · intro he
              exact Or.inl ⟨he, fun hand => hrF hand.1⟩
            · rintro (⟨he, _⟩ | ⟨hto, _⟩)
              · exact he
              · exact absurd hto hrTo
      rw [hN d q]
      simp only [upd]
      by_cases hdc : d = c
      · subst hdc
        rw [if_pos rfl]
        rw [mem_substList]
        constructor
        · rintro (⟨hd, hne⟩ | ⟨hto, _⟩)
          · have := (h1 d q).mp hd
            refine ⟨hc, Or.inr ⟨this.2, ?_⟩⟩
            intro hqF
            exact hne ⟨hqF, rfl⟩
          · exact ⟨hc, Or.inl ⟨hto, hpF⟩⟩
        · rintro ⟨_, hto | ⟨hq, hqF⟩⟩
          · exact Or.inr ⟨hto.1, rfl⟩
          · refine Or.inl ⟨(h1 d q).mpr ⟨hc, hq⟩, ?_⟩
            rintro ⟨hqFeq, _⟩
            exact hqF hqFeq
      · rw [if_neg hdc]
        constructor
        · rintro (⟨hd, _⟩ | ⟨_, hec⟩)
          · exact (h1 d q).mp hd
          · exact absurd hec hdc
        · intro hd
          exact Or.inl ⟨(h1 d q).mpr hd, fun hand => hdc hand.2⟩
  · rw [if_neg hg]
    exact ⟨h0, h1⟩

/-- A public connection operation on the component/node graph. -/
inductive ConnOp where
  | new : ConnOp
  | add : Nat → Int × Int → ConnOp
  | disc : Nat → Int × Int → ConnOp
  | recon : Nat → Int × Int → Int × Int → ConnOp

/-- Apply one connection operation. -/
def ConnState.apply (s : ConnState) : ConnOp → ConnState
  | ConnOp.new => s.newComponent
  | ConnOp.add c p => s.addNode c p
  | ConnOp.disc c p => s.disconnect c p
  | ConnOp.recon c pF pT => s.reconnect c pF pT

/-- The graph after an arbitrary sequence of operations from the empty
state. -/
def runConnOps (ops : List ConnOp) : ConnState :=
  ops.foldl ConnState.apply ConnState.init

theorem symmetric_apply (s : ConnState) (op : ConnOp) (h : symmetric s) :
    symmetric (s.apply op) := by
  cases op with
  | new => exact symmetric_newComponent s h
  | add c p => exact symmetric_addNode s c p h
  | disc c p => exact symmetric_disconnect s c p h
  | recon c pF pT => exact symmetric_reconnect s c pF pT h

theorem symmetric_runConnOps (ops : List ConnOp) : symmetric (runConnOps ops) := by
  unfold runConnOps
  have : ∀ (l : List ConnOp) (s : ConnState), symmetric s →
      symmetric (l.foldl ConnState.apply s) := by
    intro l
    induction l with
    | nil => intro s h; exact h
    | cons op rest ih =>
        intro s h
        exact ih (s.apply op) (symmetric_apply s op h)
  exact this ops ConnState.init symmetric_init

/-- **C4.** At every quiescent point — i.e. after any sequence of public
connection operations from the empty graph — a component is in a node's
direct-component list iff the node is in the component's slot sequence;
and `disconnect(x, y)` leaves no dangling reference in either direction:
after it, the node is gone from the component's slots and the component is
gone from the node's direct-component list. -/
theorem back_edge_symmetry (ops : List ConnOp) :
    (∀ (c : Nat) (p : Int × Int), c < (runConnOps ops).numComps →
      (c ∈ (runConnOps ops).nodeComps p ↔ p ∈ (runConnOps ops).compNodes c)) ∧
    ∀ (c : Nat) (p : Int × Int),
      p ∉ ((runConnOps ops).disconnect c p).compNodes c ∧
        c ∉ ((runConnOps ops).disconnect c p).nodeComps p := by
  obtain ⟨h0, h1⟩ := symmetric_runConnOps ops
  constructor
  · intro c p hc
    rw [h1 c p]
    constructor
    · rintro ⟨_, hp⟩; exact hp
    · intro hp; exact ⟨hc, hp⟩
  · intro c p
    unfold ConnState.disconnect
    by_cases hc : c < (runConnOps ops).numComps
    · rw [if_pos hc]
      constructor
      · simp [upd, List.mem_filter]
      · simp [upd, List.mem_filter]
    · rw [if_neg hc]
      constructor
      · rw [h0 c (by omega)]
        simp
      · intro hmem
        exact hc ((h1 c p).mp hmem).1

/-- **C8.** For a two-terminal component bound at distinct terminals
`a` (slot 0) and `b` (slot 1), `reconnect` from `a` to a fresh coordinate
`pTo` replaces only slot 0: slot 1 keeps node `b` in the same position,
every other component's slots are untouched, and the stale back-edge from
the node at `a` to the component is removed. -/
theorem reconnect_preserves_identity (s : ConnState) (c : Nat)
    (a b pTo : Int × Int) (hc : c < s.numComps)
    (hslots : s.compNodes c = [a, b]) (hab : b ≠ a) (hTo : pTo ≠ a) :
    (s.reconnect c a pTo).compNodes c = [pTo, b] ∧
      c ∉ (s.reconnect c a pTo).nodeComps a ∧
      (∀ d : Nat, d ≠ c → (s.reconnect c a pTo).compNodes d = s.compNodes d) ∧
      (s.reconnect c a pTo).numComps = s.numComps := by
  have hmem : a ∈ s.compNodes c := by rw [hslots]; simp
  unfold ConnState.reconnect
  rw [if_pos ⟨hc, hmem⟩]
  refine ⟨?_, ?_, ?_, rfl⟩
  · simp only [upd]
    rw [hslots]
    simp [hab]
  · have haTo : a ≠ pTo := fun h => hTo h.symm
    simp [upd, haTo, List.mem_filter]
  · intro d hd
    simp only [upd, if_neg hd]

/-- Witness for C8: a component with slots `[(1,1), (2,2)]` reconnected
from `(1,1)` to `(3,3)` keeps `(2,2)` in slot 1 and loses the stale
back-edge at `(1,1)`. -/
theorem reconnect_preserves_identity_witness :
    ((runConnOps [ConnOp.new, ConnOp.add 0 (1, 1), ConnOp.add 0 (2, 2)]).reconnect
        0 (1, 1) (3, 3)).compNodes 0 = [(3, 3), (2, 2)] ∧
      0 ∉ ((runConnOps [ConnOp.new, ConnOp.add 0 (1, 1),
        ConnOp.add 0 (2, 2)]).reconnect 0 (1, 1) (3, 3)).nodeComps (1, 1) ∧
      (∀ d : Nat, d ≠ 0 →
        ((runConnOps [ConnOp.new, ConnOp.add 0 (1, 1),
          ConnOp.add 0 (2, 2)]).reconnect 0 (1, 1) (3, 3)).compNodes d =
        (runConnOps [ConnOp.new, ConnOp.add 0 (1, 1),
          ConnOp.add 0 (2, 2)]).compNodes d) ∧
      ((runConnOps [ConnOp.new, ConnOp.add 0 (1, 1),
        ConnOp.add 0 (2, 2)]).reconnect 0 (1, 1) (3, 3)).numComps =
      (runConnOps [ConnOp.new, ConnOp.add 0 (1, 1),
        ConnOp.add 0 (2, 2)]).numComps :=
  reconnect_preserves_identity
    (runConnOps [ConnOp.new, ConnOp.add 0 (1, 1), ConnOp.add 0 (2, 2)])
    0 (1, 1) (2, 2) (3, 3) (by decide) (by rfl) (by decide) (by decide)

/-! ## Voltage propagation (spec section 4.3; the core algorithm)

Modelled from the spec: the bodies of `Wire::_nodeVoltageChanged`,
`Switch::_nodeVoltageChanged` and `Component::updateVoltages` are in the
repository's missing translation unit.  Per spec section 4.3, a voltage
change at a node notifies every component attached to it; the two-terminal
pass-through variants (Wire, and Switch in the `CLOSE` state) forward the
change to their other terminal's node, each keeping a per-call change flag
that is set before forwarding and checked on re-entry, so a component
already mid-update never re-enters the forward step in the same wave; an
OPEN Switch does not forward.  The wave is modelled as a worklist
traversal: `done` is the set of pass-through components whose change flag
is set (in the order they forwarded), `wl` the nodes still to visit,
`proc` the nodes already visited. -/

structure PassComp where
  active : Bool
  endA : Int × Int
  endB : Int × Int
deriving Repr, DecidableEq

instance : Inhabited PassComp := ⟨⟨false, (0, 0), (0, 0)⟩⟩

/-- Component `c` has a terminal at node `n`. -/
def touches (c : PassComp) (n : Int × Int) : Bool :=
  decide (c.endA = n) || decide (c.endB = n)

/-- The other terminal of a pass-through notified at node `n`. -/
def otherEnd (c : PassComp) (n : Int × Int) : Int × Int :=
  if c.endA = n then c.endB else c.endA

/-- The pass-through components that forward when node `n` is visited:
attached to `n`, forwarding (wire / closed switch), change flag unset. -/
def forwardsAt (g : List PassComp) (done : List Nat) (n : Int × Int) : List Nat :=
  (List.range g.length).filter fun i =>
    decide (i ∉ done) && ((g.getD i default).active && touches (g.getD i default) n)

/-- One propagation wave: visit the worklist nodes in order; visiting `n`
sets the change flag of each not-yet-flagged forwarding component at `n`
and enqueues its other terminal.  `fuel` bounds the recursion; the
termination theorem shows `2·|g| + 2` always suffices. -/
def wave : Nat → List PassComp → List Nat → List (Int × Int) → List (Int × Int) →
    Option (List Nat × List (Int × Int))
  | 0, _, _, _, _ => none
  | _ + 1, _, done, [], proc => some (done, proc)
  | fuel + 1, g, done, n :: rest, proc =>
      wave fuel g (done ++ forwardsAt g done n)
        (rest ++ (forwardsAt g done n).map (fun i => otherEnd (g.getD i default) n))
        (proc ++ [n])

/-- Trigger a voltage change at node `n` on topology `g`. -/
def runWave (g : List PassComp) (n : Int × Int) :
    Option (List Nat × List (Int × Int)) :=
  wave (2 * g.length + 2) g [] [n] []

/-- Component `i` exists, forwards, and has a terminal at `m`. -/
def activeTouch (g : List PassComp) (i : Nat) (m : Int × Int) : Prop :=
  i < g.length ∧ (g.getD i default).active = true ∧
    touches (g.getD i default) m = true

/-- Nodes reachable from `n0` through wires and closed switches. -/
inductive Reaches (g : List PassComp) (n0 : Int × Int) : Int × Int → Prop
  | refl : Reaches g n0 n0
  | step {m : Int × Int} {i : Nat} : Reaches g n0 m → activeTouch g i m →
      Reaches g n0 (otherEnd (g.getD i default) m)

/-- A pass-through component reachable from `n0` through closed-switch /
wire paths: it forwards and touches a reachable node. -/
def reachComp (g : List PassComp) (n0 : Int × Int) (i : Nat) : Prop :=
  ∃ m, Reaches g n0 m ∧ activeTouch g i m

theorem forwardsAt_mem (g : List PassComp) (done : List Nat) (n : Int × Int)
    (i : Nat) :
    i ∈ forwardsAt g done n ↔
      (i < g.length ∧ i ∉ done ∧ (g.getD i default).active = true ∧
        touches (g.getD i default) n = true) := by
  unfold forwardsAt
  rw [List.mem_filter]
  simp only [List.mem_range, Bool.and_eq_true, decide_eq_true_eq]

theorem forwardsAt_nodup (g : List PassComp) (done : List Nat) (n : Int × Int) :
    (forwardsAt g done n).Nodup :=
  (List.nodup_range _).filter _

/-- The set of pass-through components whose change flag is still unset. -/
def unflagged (g : List PassComp) (done : List Nat) : Finset Nat :=
  (Finset.range g.length).filter (fun i => i ∉ done)

theorem forwardsAt_toFinset_subset (g : List PassComp) (done : List Nat)
    (n : Int × Int) : (forwardsAt g done n).toFinset ⊆ unflagged g done := by
  intro i hi
  rw [List.mem_toFinset, forwardsAt_mem] at hi
  rw [unflagged, Finset.mem_filter, Finset.mem_range]
  exact ⟨hi.1, hi.2.1⟩

theorem unflagged_append_forwards (g : List PassComp) (done : List Nat)
    (n : Int × Int) :
    (unflagged g (done ++ forwardsAt g done n)).card
      = (unflagged g done).card - (forwardsAt g done n).length := by
  have h1 : unflagged g (done ++ forwardsAt g done n)
      = unflagged g done \ (forwardsAt g done n).toFinset := by
    ext i
    simp only [unflagged, Finset.mem_sdiff, Finset.mem_filter,
      Finset.mem_range, List.mem_toFinset, List.mem_append]
    tauto
  rw [h1, Finset.card_sdiff (forwardsAt_toFinset_subset g done n),
    List.toFinset_card_of_nodup (forwardsAt_nodup g done n)]

theorem forwardsAt_length_le (g : List PassComp) (done : List Nat)
    (n : Int × Int) :
    (forwardsAt g done n).length ≤ (unflagged g done).card := by
  rw [← List.toFinset_card_of_nodup (forwardsAt_nodup g done n)]
  exact Finset.card_le_card (forwardsAt_toFinset_subset g done n)

/-- Fuel sufficiency: with fuel exceeding twice the number of unflagged
pass-throughs plus the worklist length, the wave completes. -/
theorem wave_isSome :
    ∀ (fuel : Nat) (g : List PassComp) (done : List Nat)
      (wl proc : List (Int × Int)),
      2 * (unflagged g done).card + wl.length < fuel →
      (wave fuel g done wl proc).isSome = true := by
  intro fuel
  induction fuel with
  | zero => intro g done wl proc h; omega
  | succ f ih =>
      intro g done wl proc h
      cases wl with
      | nil => simp [wave]
      | cons n rest =>
          simp only [wave]
          apply ih
          have hk := unflagged_append_forwards g done n
          have hle := forwardsAt_length_le g done n
          rw [hk, List.length_append, List.length_map]
          simp only [List.length_cons] at h
          omega

theorem wave_done_nodup :
    ∀ (fuel : Nat) (g : List PassComp) (done : List Nat)
      (wl proc : List (Int × Int)) (D : List Nat) (P : List (Int × Int)),
      wave fuel g done wl proc = some (D, P) → done.Nodup → D.Nodup := by
  intro fuel
  induction fuel with
  | zero => intro g done wl proc D P h _; simp [wave] at h
  | succ f ih =>
      intro g done wl proc D P h hnd
      cases wl with
      | nil =>
          simp only [wave, Option.some.injEq, Prod.mk.injEq] at h
          exact h.1 ▸ hnd
      | cons n rest =>
          simp only [wave] at h
          refine ih _ _ _ _ _ _ h ?_
          rw [List.nodup_append]
          refine ⟨hnd, forwardsAt_nodup g done n, ?_⟩
          intro i hi hif
          rw [forwardsAt_mem] at hif
          exact hif.2.1 hi

theorem wave_mono :
    ∀ (fuel : Nat) (g : List PassComp) (done : List Nat)
      (wl proc : List (Int × Int)) (D : List Nat) (P : List (Int × Int)),
      wave fuel g done wl proc = some (D, P) →
      (∀ i ∈ done, i ∈ D) ∧ (∀ m ∈ proc, m ∈ P) ∧ (∀ m ∈ wl, m ∈ P) := by
  intro fuel
  induction fuel with
  | zero => intro g done wl proc D P h; simp [wave] at h
  | succ f ih =>
      intro g done wl proc D P h
      cases wl with
      | nil =>
          simp only [wave, Option.some.injEq, Prod.mk.injEq] at h
          obtain ⟨h1, h2⟩ := h
          subst h1; subst h2
          exact ⟨fun i hi => hi, fun m hm => hm, fun m hm => by simp at hm⟩
      | cons n rest =>
          simp only [wave] at h
          obtain ⟨hd, hp, hw⟩ := ih _ _ _ _ _ _ h
          refine ⟨?_, ?_, ?_⟩
          · intro i hi
            exact hd i (List.mem_append_left _ hi)
          · intro m hm
            exact hp m (List.mem_append_left _ hm)
          · intro m hm
            rw [List.mem_cons] at hm
            rcases hm with hm | hm
            · subst hm
              exact hp m (List.mem_append_right _ (by simp))
            · exact hw m (List.mem_append_left _ hm)

theorem touches_iff (c : PassComp) (n : Int × Int) :
    touches c n = true ↔ (c.endA = n ∨ c.endB = n) := by
  simp [touches]

theorem wave_done_ends :
    ∀ (fuel : Nat) (g : List PassComp) (done : List Nat)
      (wl proc : List (Int × Int)) (D : List Nat) (P : List (Int × Int)),
      wave fuel g done wl proc = some (D, P) →
      (∀ i ∈ done, i < g.length ∧ (g.getD i default).active = true ∧
        (g.getD i default).endA ∈ proc ++ wl ∧
        (g.getD i default).endB ∈ proc ++ wl) →
      ∀ i ∈ D, i < g.length ∧ (g.getD i default).active = true ∧
        (g.getD i default).endA ∈ P ∧ (g.getD i default).endB ∈ P := by
  intro fuel
  induction fuel with
  | zero => intro g done wl proc D P h _; simp [wave] at h
  | succ f ih =>
      intro g done wl proc D P h hinv
      cases wl with
      | nil =>
          simp only [wave, Option.some.injEq, Prod.mk.injEq] at h
          obtain ⟨h1, h2⟩ := h
          subst h1; subst h2
          intro i hi
          have := hinv i hi
          rwa [List.append_nil] at this
      | cons n rest =>
          simp only [wave] at h
          refine ih _ _ _ _ _ _ h ?_
          intro i hi
          rw [List.mem_append] at hi
          rcases hi with hi | hi
          · obtain ⟨h1, h2, h3, h4⟩ := hinv i hi
            refine ⟨h1, h2, ?_, ?_⟩
            · simp only [List.mem_append, List.mem_cons, List.mem_singleton] at h3 ⊢
              tauto
            · simp only [List.mem_append, List.mem_cons, List.mem_singleton] at h4 ⊢
              tauto
          · have hiF := hi
            rw [forwardsAt_mem] at hi
            obtain ⟨h1, _, h3, h4⟩ := hi
            have hO : otherEnd (g.getD i default) n ∈
                (forwardsAt g done n).map (fun j => otherEnd (g.getD j default) n) :=
              List.mem_map_of_mem _ hiF
            have hn : n ∈ (proc ++ [n]) ++ (rest ++
                (forwardsAt g done n).map (fun j => otherEnd (g.getD j default) n)) := by
              simp
            rw [touches_iff] at h4
            refine ⟨h1, h3, ?_, ?_⟩
            · by_cases hA : (g.getD i default).endA = n
              · rw [hA]; exact hn
              · have hB : (g.getD i default).endB = n := by tauto
                have : otherEnd (g.getD i default) n = (g.getD i default).endA := by
                  unfold otherEnd; rw [if_neg hA]
                rw [← this]
                simp only [List.mem_append]
                exact Or.inr (Or.inr hO)
            · by_cases hA : (g.getD i default).endA = n
              · have : otherEnd (g.getD i default) n = (g.getD i default).endB := by
                  unfold otherEnd; rw [if_pos hA]
                rw [← this]
                simp only [List.mem_append]
                exact Or.inr (Or.inr hO)
              · have hB : (g.getD i default).endB = n := by tauto
                rw [hB]; exact hn

theorem wave_closed :
    ∀ (fuel : Nat) (g : List PassComp) (done : List Nat)
      (wl proc : List (Int × Int)) (D : List Nat) (P : List (Int × Int)),
      wave fuel g done wl proc = some (D, P) →
      (∀ m ∈ proc, ∀ i, activeTouch g i m → i ∈ done) →
      ∀ m ∈ P, ∀ i, activeTouch g i m → i ∈ D := by
  intro fuel
  induction fuel with
  | zero => intro g done wl proc D P h _; simp [wave] at h
  | succ f ih =>
      intro g done wl proc D P h hinv
      cases wl with
      | nil =>
          simp only [wave, Option.some.injEq, Prod.mk.injEq] at h
          obtain ⟨h1, h2⟩ := h
          subst h1; subst h2
          exact hinv
      | cons n rest =>
          simp only [wave] at h
          refine ih _ _ _ _ _ _ h ?_
          intro m hm i hat
          rw [List.mem_append, List.mem_singleton] at hm
          rcases hm with hm | hm
          · exact List.mem_append_left _ (hinv m hm i hat)
          · subst hm
            by_cases hid : i ∈ done
            · exact List.mem_append_left _ hid
            · refine List.mem_append_right _ ?_
              rw [forwardsAt_mem]
              exact ⟨hat.1, hid, hat.2.1, hat.2.2⟩

theorem wave_sound :
    ∀ (fuel : Nat) (g : List PassComp) (n0 : Int × Int) (done : List Nat)
      (wl proc : List (Int × Int)) (D : List Nat) (P : List (Int × Int)),
      wave fuel g done wl proc = some (D, P) →
      (∀ m ∈ proc, Reaches g n0 m) →
      (∀ m ∈ wl, Reaches g n0 m) →
      (∀ i ∈ done, reachComp g n0 i) →
      (∀ m ∈ P, Reaches g n0 m) ∧ (∀ i ∈ D, reachComp g n0 i) := by
  intro fuel
  induction fuel with
  | zero => intro g n0 done wl proc D P h _ _ _; simp [wave] at h
  | succ f ih =>
      intro g n0 done wl proc D P h hproc hwl hdone
      cases wl with
      | nil =>
          simp only [wave, Option.some.injEq, Prod.mk.injEq] at h
          obtain ⟨h1, h2⟩ := h
          subst h1; subst h2
          exact ⟨hproc, hdone⟩
      | cons n rest =>
          simp only [wave] at h
          have hn : Reaches g n0 n := hwl n (by simp)
          refine ih _ n0 _ _ _ _ _ h ?_ ?_ ?_
          · intro m hm
            rw [List.mem_append, List.mem_singleton] at hm
            rcases hm with hm | hm
            · exact hproc m hm
            · exact hm ▸ hn
          · intro m hm
            rw [List.mem_append] at hm
            rcases hm with hm | hm
            · exact hwl m (List.mem_cons_of_mem _ hm)
            · rw [List.mem_map] at hm
              obtain ⟨i, hiF, rfl⟩ := hm
              rw [forwardsAt_mem] at hiF
              exact Reaches.step hn ⟨hiF.1, hiF.2.2.1, hiF.2.2.2⟩
          · intro i hi
            rw [List.mem_append] at hi
            rcases hi with hi | hi
            · exact hdone i hi
            · rw [forwardsAt_mem] at hi
              exact ⟨n, hn, hi.1, hi.2.2.1, hi.2.2.2⟩

theorem unflagged_card_le (g : List PassComp) (done : List Nat) :
    (unflagged g done).card ≤ g.length := by
  calc (unflagged g done).card ≤ (Finset.range g.length).card :=
        Finset.card_filter_le _ _
    _ = g.length := Finset.card_range _

theorem runWave_isSome (g : List PassComp) (n : Int × Int) :
    (runWave g n).isSome = true := by
  unfold runWave
  apply wave_isSome
  have := unflagged_card_le g []
  simp only [List.length_cons, List.length_nil]
  omega

theorem runWave_complete (g : List PassComp) (n : Int × Int)
    (D : List Nat) (P : List (Int × Int)) (h : runWave g n = some (D, P)) :
    (∀ m, Reaches g n m → m ∈ P) ∧ (∀ i, reachComp g n i → i ∈ D) := by
  unfold runWave at h
  have hmono := wave_mono _ _ _ _ _ _ _ h
  have hclosed := wave_closed _ _ _ _ _ _ _ h (by intro m hm; simp at hm)
  have hends := wave_done_ends _ _ _ _ _ _ _ h (by intro i hi; simp at hi)
  have hreach : ∀ m, Reaches g n m → m ∈ P := by
    intro m hre
    induction hre with
    | refl => exact hmono.2.2 n (by simp)
    | step hre hat ihm =>
        rename_i m0 i0
        have hiD : i0 ∈ D := hclosed m0 ihm i0 hat
        have hED := hends i0 hiD
        unfold otherEnd
        by_cases hA : (g.getD i0 default).endA = m0
        · rw [if_pos hA]; exact hED.2.2.2
        · rw [if_neg hA]; exact hED.2.2.1
  refine ⟨hreach, ?_⟩
  rintro i ⟨m, hre, hat⟩
  exact hclosed m (hreach m hre) i hat

/-- **C1.** On any topology of wires and switches (cycles and diamonds
included), a voltage change triggered at any node terminates: fuel
`2·|g| + 2` always completes the wave; and the pass-through components
whose per-wave change flag gets set are, without repetition, exactly the
forwarding components reachable from the start node through wire /
closed-switch paths — each such component forwards exactly once per
wave. -/
theorem propagation_terminates_and_visits_once (g : List PassComp)
    (n : Int × Int) :
    ∃ (D : List Nat) (P : List (Int × Int)),
      runWave g n = some (D, P) ∧ D.Nodup ∧
        (∀ i, i ∈ D ↔ reachComp g n i) := by
  obtain ⟨⟨D, P⟩, h⟩ := Option.isSome_iff_exists.mp (runWave_isSome g n)
  refine ⟨D, P, h, ?_, ?_⟩
  · have h2 := h
    unfold runWave at h2
    exact wave_done_nodup _ _ _ _ _ _ _ h2 List.nodup_nil
  · intro i
    constructor
    · intro hi
      have h2 := h
      unfold runWave at h2
      refine (wave_sound _ _ n _ _ _ _ _ h2 (by intro m hm; simp at hm)
        ?_ (by intro j hj; simp at hj)).2 i hi
      intro m hm
      simp only [List.mem_singleton] at hm
      exact hm ▸ Reaches.refl
    · intro hi
      exact (runWave_complete g n D P h).2 i hi

/-- **C5.** An OPEN switch (index `k`, `active = false`) never forwards a
wave: its change flag is never set, and every node the wave reaches is
reachable through forwarding components only — so no voltage change
crosses the open switch to the other side.  Toggling it to CLOSE
(`active := true`) and re-triggering at one of its terminals immediately
propagates across it: the switch forwards and its other terminal is
reached. -/
theorem open_switch_isolation (g : List PassComp) (k : Nat) (n : Int × Int)
    (hk : k < g.length) (hopen : (g.getD k default).active = false) :
    (∀ (D : List Nat) (P : List (Int × Int)), runWave g n = some (D, P) →
      k ∉ D ∧ ∀ m ∈ P, Reaches g n m) ∧
    (∀ (D : List Nat) (P : List (Int × Int)),
      runWave (g.set k ⟨true, (g.getD k default).endA, (g.getD k default).endB⟩)
          ((g.getD k default).endA) = some (D, P) →
      k ∈ D ∧ (g.getD k default).endB ∈ P) := by
  constructor
  · intro D P h
    unfold runWave at h
    have hsound := wave_sound _ g n _ _ _ _ _ h
      (by intro m hm; simp at hm)
      (by
        intro m hm
        simp only [List.mem_singleton] at hm
        exact hm ▸ Reaches.refl)
      (by intro i hi; simp at hi)
    constructor
    · intro hkD
      obtain ⟨m, -, -, hact, -⟩ := hsound.2 k hkD
      rw [hopen] at hact
      exact absurd hact (by simp)
    · exact hsound.1
  · intro D P h
    have hget : (g.set k
          ⟨true, (g.getD k default).endA, (g.getD k default).endB⟩).getD k default
        = ⟨true, (g.getD k default).endA, (g.getD k default).endB⟩ := by
      rw [List.getD_eq_getElem?_getD, List.getElem?_set_self (by simpa using hk)]
      rfl
    have hat : activeTouch
        (g.set k ⟨true, (g.getD k default).endA, (g.getD k default).endB⟩) k
        ((g.getD k default).endA) := by
      refine ⟨by rw [List.length_set]; exact hk, ?_, ?_⟩
      · rw [hget]
      · rw [hget]; simp [touches]
    have hcomp := runWave_complete _ _ D P h
    constructor
    · exact hcomp.2 k ⟨_, Reaches.refl, hat⟩
    · have hstep := Reaches.step Reaches.refl hat
      have hoe : otherEnd
          ((g.set k ⟨true, (g.getD k default).endA,
            (g.getD k default).endB⟩).getD k default)
          ((g.getD k default).endA) = (g.getD k default).endB := by
        rw [hget]
        simp [otherEnd]
      rw [hoe] at hstep
      exact hcomp.1 _ hstep

/-- Witness for C5: one OPEN switch between `(0,0)` and `(1,1)`.  A wave
from `(0,0)` flags nothing and reaches only `(0,0)`; after closing the
switch, a wave from `(0,0)` flags the switch and reaches `(1,1)`. -/
theorem open_switch_isolation_witness :
    ((0 : Nat) ∉ ([] : List Nat) ∧
      ∀ m ∈ [((0 : Int), (0 : Int))],
        Reaches [⟨false, (0, 0), (1, 1)⟩] (0, 0) m) ∧
      ((0 : Nat) ∈ [0] ∧
        (((1 : Int), (1 : Int)) : Int × Int) ∈
          [(((0 : Int), (0 : Int)) : Int × Int), (1, 1)]) :=
  ⟨(open_switch_isolation [⟨false, (0, 0), (1, 1)⟩] 0 (0, 0)
      (by decide) (by rfl)).1 [] [((0 : Int), (0 : Int))] (by rfl),
   (open_switch_isolation [⟨false, (0, 0), (1, 1)⟩] 0 (0, 0)
      (by decide) (by rfl)).2 [0] [((0 : Int), (0 : Int)), (1, 1)] (by rfl)⟩

/-- Witness for C4: after creating one component and attaching it at
`(1,1)`, the back-edge iff holds there and disconnecting leaves no
dangling reference. -/
theorem back_edge_symmetry_witness :
    ((0 : Nat) ∈ (runConnOps [ConnOp.new, ConnOp.add 0 (1, 1)]).nodeComps (1, 1) ↔
      (((1 : Int), (1 : Int)) : Int × Int) ∈
        (runConnOps [ConnOp.new, ConnOp.add 0 (1, 1)]).compNodes 0) ∧
      ((((1 : Int), (1 : Int)) : Int × Int) ∉
        ((runConnOps [ConnOp.new, ConnOp.add 0 (1, 1)]).disconnect
          0 (1, 1)).compNodes 0 ∧
        (0 : Nat) ∉ ((runConnOps [ConnOp.new, ConnOp.add 0 (1, 1)]).disconnect
          0 (1, 1)).nodeComps (1, 1)) :=
  ⟨(back_edge_symmetry [ConnOp.new, ConnOp.add 0 (1, 1)]).1 0 (1, 1) (by decide),
   (back_edge_symmetry [ConnOp.new, ConnOp.add 0 (1, 1)]).2 0 (1, 1)⟩
